import Mathlib

/-!
Verification of the `react-value-storage` core: a path-addressable mutation
engine over JSON-like trees (`src/tools.ts` and the `KeyValueStorage` facade
in `src/core.ts`).

The embedding below translates the TypeScript source into Lean:

* `Value` is the tree value type: scalars (null/undefined collapse to
  `vNull`, matching the `== null` checks in the source), booleans, numbers,
  strings, ordered lists and keyed mappings (assoc lists, insertion order
  preserved, as in JS objects).
* `parsePath` embeds the regex scanner
  `/([^[.\]]+)|\[(\d+)\]/g` of `parsePath` in `tools.ts`: at each position the
  engine first tries a maximal run of characters outside `. [ ]`, then a
  bracketed digit group; positions matching neither are skipped.  Since a
  digit is never `]`, the greedy digit group needs no backtracking.
* `deepSetGo` / `deepGetGo` / `deepRemoveLoop` embed `deepSet` / `deepGet` /
  `deepRemove`.  The in-place mutation through the `parentItem` reference
  chain is modelled by rebuilding the tree along the single descent path:
  writing the final child value back with `setIdx` captures both the direct
  assignments (`parentItem[key] = ...`) and the in-place mutations of the
  shared child.  Errors thrown mid-loop leave earlier mutations in place, so
  `deepSetGo` returns the (possibly mutated) tree together with the error.
* JS property access converts numeric keys to their decimal string on
  objects (`obj[0]` reads `obj["0"]`); `keyName` embeds that conversion.
* The facade (`getValue`/`setValueRun`/`delValue`) trims the key first;
  `jsTrim` models `String.prototype.trim` (strip leading and trailing
  whitespace) structurally so that it evaluates.
-/

namespace RVStore

/-- JSON-like tree values.  `vNull` stands for both `null` and `undefined`
(the source only ever tests them jointly via `== null`). -/
inductive Value where
  | vNull
  | vBool (b : Bool)
  | vNum (n : Int)
  | vStr (s : String)
  | vArr (elems : List Value)
  | vObj (fields : List (String × Value))

/-- A parsed path segment: a string key or a numeric index
(`parsePath` produces numbers for all-digit dot segments and for bracket
segments, strings otherwise). -/
inductive PKey where
  | str (s : String)
  | num (n : Nat)
deriving DecidableEq, Repr

/-- The three error classes of `core.ts`. -/
inductive Err where
  | keyFormatException
  | keyNotFound
  | rawValueDetected
deriving DecidableEq, Repr

/-- JS test `curr == null`: true exactly for null/undefined. -/
def isNull : Value → Bool
  | .vNull => true
  | _ => false

/-- JS typeof-object test for a non-null value: arrays and plain objects. -/
def isContainer : Value → Bool
  | .vArr _ => true
  | .vObj _ => true
  | _ => false

/-- JS `Array.isArray`. -/
def isArr : Value → Bool
  | .vArr _ => true
  | _ => false

/-- Is the value a plain (non-array) object? -/
def isObjV : Value → Bool
  | .vObj _ => true
  | _ => false

def isNum : PKey → Bool
  | .num _ => true
  | .str _ => false

/-- Decimal digits of `n`, most significant first, accumulated onto `acc`.
Fuel-based so that it evaluates in the kernel; `n + 1` units of fuel always
suffice because the argument shrinks by a factor of ten each step. -/
def natToDigitsAux : Nat → Nat → List Char → List Char
  | 0, _, acc => acc
  | fuel + 1, n, acc =>
    let acc2 := Char.ofNat (48 + n % 10) :: acc
    if n < 10 then acc2 else natToDigitsAux fuel (n / 10) acc2

/-- Decimal string of a natural number, as JS renders array indices and
numeric object keys. -/
def natToString (n : Nat) : String := ⟨natToDigitsAux (n + 1) n []⟩

/-- The property name actually used by JS for a segment: numeric segments
address objects through their decimal string. -/
def keyName : PKey → String
  | .str s => s
  | .num n => natToString n

/-- Property lookup on a JS object (first binding wins); absent keys read as
`undefined`. -/
def objLookup : List (String × Value) → String → Value
  | [], _ => .vNull
  | (k, w) :: rest, s => if k = s then w else objLookup rest s

/-- Property assignment on a JS object: overwrite the binding if present,
append it otherwise. -/
def objSet : List (String × Value) → String → Value → List (String × Value)
  | [], s, v => [(s, v)]
  | (k, w) :: rest, s, v =>
    if k = s then (k, v) :: rest else (k, w) :: objSet rest s v

/-- JS `delete obj[key]`: drop the binding entirely. -/
def objDel : List (String × Value) → String → List (String × Value)
  | [], _ => []
  | (k, w) :: rest, s => if k = s then rest else (k, w) :: objDel rest s

/-- Reading `curr[key]`.  Objects convert numeric keys to strings;
arrays answer positional lookups (out of range reads as `undefined`); string
keys on arrays and any key on a scalar read as `undefined`. -/
def getIdx : Value → PKey → Value
  | .vObj f, k => objLookup f (keyName k)
  | .vArr xs, .num n => xs.getD n .vNull
  | .vArr _, .str _ => .vNull
  | _, _ => .vNull

/-- Assignment `curr[key] = v`.  Setting an index past the end of a JS array extends it
with holes (`undefined`) up to that index; assignments into scalars are
silent no-ops. -/
def setIdx : Value → PKey → Value → Value
  | .vObj f, k, v => .vObj (objSet f (keyName k) v)
  | .vArr xs, .num n, v =>
    if n < xs.length then .vArr (xs.set n v)
    else .vArr (xs ++ List.replicate (n - xs.length) .vNull ++ [v])
  | .vArr xs, .str _, _ => .vArr xs
  | other, _, _ => other

/-- JS `delete curr[key]`: removes an object property entirely; on an array it
leaves a hole (`undefined`) without shifting, so the length is unchanged. -/
def delIdx : Value → PKey → Value
  | .vObj f, k => .vObj (objDel f (keyName k))
  | .vArr xs, .num n =>
    if n < xs.length then .vArr (xs.set n .vNull) else .vArr xs
  | .vArr xs, .str _ => .vArr xs
  | other, _ => other

/-! ## Path parser (`parsePath` in `tools.ts`) -/

/-- The three characters excluded from a dot-segment run by the character
class of the regex. -/
def isDelim (c : Char) : Bool := c = '.' || c = '[' || c = ']'

/-- Maximal prefix of characters outside `. [ ]`, with the remainder:
one greedy match of the first regex alternative. -/
def takeRun : List Char → List Char × List Char
  | [] => ([], [])
  | c :: rest =>
    if isDelim c then ([], c :: rest)
    else
      let p := takeRun rest
      (c :: p.1, p.2)

/-- Maximal prefix of decimal digits, with the remainder. -/
def takeDigits : List Char → List Char × List Char
  | [] => ([], [])
  | c :: rest =>
    if c.isDigit then
      let p := takeDigits rest
      (c :: p.1, p.2)
    else ([], c :: rest)

/-- Attempt the second regex alternative just after an opening bracket:
one or more digits followed by a closing bracket.  Returns the digit group
and the remainder after the closing bracket. -/
def readBracket (l : List Char) : Option (List Char × List Char) :=
  let p := takeDigits l
  if p.1.isEmpty then none
  else if p.2.head? = some ']' then some (p.1, p.2.tail) else none

/-- A raw token found by the scanner: a dot-segment run or a bracketed digit
group. -/
inductive Tok where
  | dotSeg (ds : List Char)
  | bracket (ds : List Char)
deriving DecidableEq, Repr

/-- Fuel-driven scanner for the global regex: at each position, try a
dot-segment run, then a bracket group; skip characters matching neither.
Every step consumes at least one character, so `l.length` fuel suffices. -/
def scanF : Nat → List Char → List Tok
  | 0, _ => []
  | fuel + 1, l =>
    match l with
    | [] => []
    | c :: rest =>
      if c = '[' then
        match readBracket rest with
        | some (ds, rest2) => Tok.bracket ds :: scanF fuel rest2
        | none => scanF fuel rest
      else if isDelim c then scanF fuel rest
      else Tok.dotSeg (takeRun (c :: rest)).1 :: scanF fuel (takeRun (c :: rest)).2

/-- All regex matches of `/([^[.\]]+)|\[(\d+)\]/g` over the character list. -/
def scan (l : List Char) : List Tok := scanF l.length l

/-- JS all-digit regex test on a string: non-empty and all decimal digits. -/
def isNumeric (s : String) : Bool := !s.data.isEmpty && s.data.all Char.isDigit

/-- Numeric value of a digit string, as `Number` reads it. -/
def digitsToNat (l : List Char) : Nat :=
  l.foldl (fun a c => 10 * a + (c.toNat - 48)) 0

/-- Convert one token to a path segment: bracket groups and all-digit dot
segments become numbers, all other dot segments become string keys. -/
def tokToKey : Tok → PKey
  | .dotSeg ds => if !ds.isEmpty && ds.all Char.isDigit then .num (digitsToNat ds) else .str ⟨ds⟩
  | .bracket ds => .num (digitsToNat ds)

/-- The function `parsePath` from `tools.ts`. -/
def parsePath (path : String) : List PKey := (scan path.data).map tokToKey

/-! ## Tree mutator (`deepSet`, `deepGet`, `deepRemove` in `tools.ts`) -/

/-- The object fields produced by spreading an array, starting at index `i`:
own enumerable properties are exactly the elements keyed by their decimal
positions (`length` is not enumerable). -/
def arrFieldsFrom (i : Nat) : List Value → List (String × Value)
  | [] => []
  | x :: xs => (natToString i, x) :: arrFieldsFrom (i + 1) xs

def arrFields (xs : List Value) : List (String × Value) := arrFieldsFrom 0 xs

/-- Spreading an array into an object literal: the list-to-mapping downgrade of
`deepSet`.  On non-arrays it is the identity (never used that way). -/
def arrToObj : Value → Value
  | .vArr xs => .vObj (arrFields xs)
  | other => other

/-- The loop body of `deepSet`, over the remaining segments.  Returns the
tree rooted at `parent` after the call together with the error, if one was
thrown: mutations made before the throw persist, exactly as with the
in-place JS mutation.  At an intermediate segment the slot is created when
absent (shape chosen by the following segment), a scalar slot raises
`RawValueDetected`, an array slot is downgraded to an object when the
following segment is a string key, and a plain-object slot is never turned
into an array (the documented asymmetry). -/
def deepSetGo (parent : Value) (keys : List PKey) (v : Value) : Value × Option Err :=
  match keys with
  | [] => (parent, none)
  | [k] => (setIdx parent k v, none)
  | k :: k2 :: rest =>
    let keyItem := getIdx parent k
    if isNull keyItem then
      let fresh : Value := if isNum k2 then .vArr [] else .vObj []
      let r := deepSetGo fresh (k2 :: rest) v
      (setIdx parent k r.1, r.2)
    else if !isContainer keyItem then
      (parent, some .rawValueDetected)
    else
      let item2 := if !isNum k2 && isArr keyItem then arrToObj keyItem else keyItem
      let r := deepSetGo item2 (k2 :: rest) v
      (setIdx parent k r.1, r.2)

/-- The function `deepSet`: parse the path and run the loop. -/
def deepSetRun (obj : Value) (path : String) (v : Value) : Value × Option Err :=
  deepSetGo obj (parsePath path) v

/-- The loop of `deepGet`: before indexing by each segment the current value
is tested with `== null` and `KeyNotFound` is thrown if it is absent; the
value reached after the last segment is returned unchecked. -/
def deepGetGo (curr : Value) (keys : List PKey) : Except Err Value :=
  match keys with
  | [] => .ok curr
  | k :: rest =>
    if isNull curr then .error .keyNotFound else deepGetGo (getIdx curr k) rest

/-- The function `deepGet`: parse the path and walk. -/
def deepGet (obj : Value) (path : String) : Except Err Value :=
  deepGetGo obj (parsePath path)

/-- The loop of `deepRemove`, with the constant `isLast` flag.  In the
source, `let i = 0` is never incremented, so `isLast`, written
`i === keys.length - 1`, has the same truth value — `keys.length == 1` — at
every iteration; it is therefore passed in once.  Each iteration checks
`curr == null`, performs `delete curr[key]` when `isLast`, and then descends
with `curr = curr[key]`.  The only mutation is the `delete`; in-place
mutation of the shared child is modelled by writing the updated child back
into its slot (a no-op when the child was absent, since reassigning the
local `curr` writes nothing back). -/
def deepRemoveLoop (curr : Value) (keys : List PKey) (isLast : Bool) : Value :=
  match keys with
  | [] => curr
  | k :: rest =>
    if isNull curr then curr
    else
      let c1 := if isLast then delIdx curr k else curr
      let child := getIdx c1 k
      let child2 := deepRemoveLoop child rest isLast
      if isNull child then c1 else setIdx c1 k child2

/-- The function `deepRemove` from `tools.ts` (it takes no length-preservation flag and
returns nothing). -/
def deepRemove (obj : Value) (path : String) : Value :=
  let keys := parsePath path
  deepRemoveLoop obj keys (keys.length == 1)

/-! ## Storage facade (`KeyValueStorage` in `core.ts`) -/

/-- Model of the JS string trim method: strip leading and trailing whitespace.
Defined structurally over the character list so that it evaluates (the JS
whitespace set restricted to the characters appearing here). -/
def jsTrim (s : String) : String :=
  ⟨((s.data.dropWhile Char.isWhitespace).reverse.dropWhile Char.isWhitespace).reverse⟩

/-- Facade method `KeyValueStorage.getValue`: an empty trimmed key throws
`KeyFormatException` before any traversal; otherwise delegate to `deepGet`
on the trimmed key. -/
def getValue (st : Value) (key : String) : Except Err Value :=
  if jsTrim key = "" then .error .keyFormatException else deepGet st (jsTrim key)

/-- Facade method `KeyValueStorage.setValue`, as (state after the call, thrown error):
an empty trimmed key throws `KeyFormatException` before touching the tree;
otherwise delegate to `deepSet` on the trimmed key. -/
def setValueRun (st : Value) (key : String) (v : Value) : Value × Option Err :=
  if jsTrim key = "" then (st, some .keyFormatException)
  else deepSetRun st (jsTrim key) v

/-- Facade method `KeyValueStorage.delValue`: an empty trimmed key returns immediately;
otherwise delegate to `deepRemove`.  The `setUndefined` flag accepted by the
facade is passed to `deepRemove`, which declares no such parameter, so it is
ignored at the call; no branch throws, hence the plain return type. -/
def delValue (st : Value) (key : String) (_setUndefined : Bool) : Value :=
  if jsTrim key = "" then st else deepRemove st (jsTrim key)

/-- Does the key kind match what JS property semantics require for a
round-trip on this container?  A string key needs a plain object (our model
gives arrays no string-keyed properties); numeric keys work on both shapes.
`deepSet` maintains this along its descent. -/
def keyFits (p : Value) (k : PKey) : Bool :=
  match k with
  | .str _ => isObjV p
  | .num _ => true

/-- The value reached after following the first `j` segments from `root`
(using JS indexing at every step). -/
def prefixVal (root : Value) (keys : List PKey) (j : Nat) : Value :=
  (keys.take j).foldl getIdx root

/-! ## Spec-level path tokens (for the parser shape property) -/

/-- A path-building token: a dotted identifier/number, or a bracketed
integer written as its digit characters. -/
inductive Token where
  | dotted (ds : List Char)
  | bracketed (ds : List Char)

/-- The characters a token contributes to the path string. -/
def tokenChars : Token → List Char
  | .dotted ds => ds
  | .bracketed ds => '[' :: ds ++ [']']

/-- Characters of all tokens after the first: a dotted token is introduced
by a dot, a bracket token follows directly. -/
def renderTail : List Token → List Char
  | [] => []
  | .dotted ds :: rest => '.' :: (ds ++ renderTail rest)
  | .bracketed ds :: rest => '[' :: (ds ++ ']' :: renderTail rest)

/-- The path string spelled from a token list. -/
def render : List Token → String
  | [] => ""
  | t :: rest => ⟨tokenChars t ++ renderTail rest⟩

/-- Well-formed tokens: dotted tokens are non-empty and free of the three
delimiter characters; bracketed tokens are non-empty digit strings. -/
def validToken : Token → Bool
  | .dotted ds => !ds.isEmpty && ds.all (fun c => !isDelim c)
  | .bracketed ds => !ds.isEmpty && ds.all Char.isDigit

/-- The raw scanner token across from each path token. -/
def tokOfToken : Token → Tok
  | .dotted ds => .dotSeg ds
  | .bracketed ds => .bracket ds

/-- The segment the spec predicts per token: bracketed tokens and all-digit
dotted tokens give an index, any other dotted token a string key. -/
def expectedKey : Token → PKey
  | .dotted ds => if ds.all Char.isDigit then .num (digitsToNat ds) else .str ⟨ds⟩
  | .bracketed ds => .num (digitsToNat ds)

/-! ## Scanner lemmas -/

theorem takeRun_append (l : List Char) : (takeRun l).1 ++ (takeRun l).2 = l := by
  induction l with
  | nil => rfl
  | cons c rest ih =>
    simp only [takeRun]
    split
    · rfl
    · simpa using ih

theorem takeDigits_append (l : List Char) : (takeDigits l).1 ++ (takeDigits l).2 = l := by
  induction l with
  | nil => rfl
  | cons c rest ih =>
    simp only [takeDigits]
    split
    · simpa using ih
    · rfl

theorem takeRun_snd_len (l : List Char) : (takeRun l).2.length ≤ l.length := by
  conv_rhs => rw [← takeRun_append l]
  simp

theorem takeRun_run (ds l : List Char) (hds : ∀ c ∈ ds, isDelim c = false)
    (hl : l = [] ∨ ∃ c0 t, l = c0 :: t ∧ isDelim c0 = true) :
    takeRun (ds ++ l) = (ds, l) := by
  induction ds with
  | nil =>
    rcases hl with h | ⟨c0, t, h, hc0⟩
    · simp [h, takeRun]
    · simp [h, takeRun, hc0]
  | cons c rest ih =>
    have hc : isDelim c = false := hds c (by simp)
    have := ih (fun x hx => hds x (by simp [hx]))
    simp [takeRun, hc, this]

theorem takeDigits_digits (ds l : List Char) (hds : ∀ c ∈ ds, c.isDigit = true) :
    takeDigits (ds ++ ']' :: l) = (ds, ']' :: l) := by
  induction ds with
  | nil => simp [takeDigits]
  | cons c rest ih =>
    have hc : c.isDigit = true := hds c (by simp)
    have := ih (fun x hx => hds x (by simp [hx]))
    simp [takeDigits, hc, this]

theorem takeRun_cons_nondelim {c : Char} {rest : List Char} (hd : isDelim c = false) :
    takeRun (c :: rest) = (c :: (takeRun rest).1, (takeRun rest).2) := by
  simp only [takeRun, hd]
  simp

theorem readBracket_eq {l ds rest2 : List Char}
    (h : readBracket l = some (ds, rest2)) :
    ds ≠ [] ∧ ds ++ ']' :: rest2 = l := by
  unfold readBracket at h
  by_cases h1 : (takeDigits l).1.isEmpty
  · simp [h1] at h
  · by_cases h2 : (takeDigits l).2.head? = some ']'
    · simp only [h1, if_neg, Bool.false_eq_true, not_false_eq_true, if_false, h2, if_pos,
        if_true, Option.some.injEq, Prod.mk.injEq] at h
      obtain ⟨hds, ht⟩ := h
      subst hds
      constructor
      · intro hnil
        rw [hnil] at h1
        simp at h1
      · have hsplit : (takeDigits l).2 = ']' :: (takeDigits l).2.tail := by
          cases hv : (takeDigits l).2 with
          | nil => rw [hv] at h2; simp at h2
          | cons a t =>
            rw [hv] at h2
            simp only [List.head?_cons, Option.some.injEq] at h2
            subst h2
            simp
        rw [← ht, ← hsplit]
        exact takeDigits_append l
    · simp [h1, h2] at h

theorem readBracket_of (ds l : List Char) (hne : ds ≠ [])
    (hds : ∀ c ∈ ds, c.isDigit = true) :
    readBracket (ds ++ ']' :: l) = some (ds, l) := by
  unfold readBracket
  rw [takeDigits_digits ds l hds]
  simp [hne]

theorem scanF_nil (fuel : Nat) : scanF fuel [] = [] := by
  cases fuel <;> rfl

theorem scanF_succ (fuel : Nat) (c : Char) (rest : List Char) :
    scanF (fuel + 1) (c :: rest) =
      if c = '[' then
        match readBracket rest with
        | some (ds, rest2) => Tok.bracket ds :: scanF fuel rest2
        | none => scanF fuel rest
      else if isDelim c then scanF fuel rest
      else Tok.dotSeg (takeRun (c :: rest)).1 :: scanF fuel (takeRun (c :: rest)).2 := rfl

theorem scanF_fuel (a : Nat) : ∀ (b : Nat) (l : List Char),
    l.length ≤ a → l.length ≤ b → scanF a l = scanF b l := by
  induction a with
  | zero =>
    intro b l ha _
    have : l = [] := List.eq_nil_of_length_eq_zero (Nat.le_zero.mp ha)
    subst this
    simp [scanF_nil]
  | succ a ih =>
    intro b l ha hb
    match l with
    | [] => simp [scanF_nil]
    | c :: rest =>
      match b with
      | 0 => simp at hb
      | b + 1 =>
        have ha2 : rest.length ≤ a := by simpa using ha
        have hb2 : rest.length ≤ b := by simpa using hb
        rw [scanF_succ a c rest, scanF_succ b c rest]
        by_cases hc : c = '['
        · rw [if_pos hc, if_pos hc]
          rcases hrb : readBracket rest with _ | ⟨ds, rest2⟩
          · exact ih b rest ha2 hb2
          · have hlen : rest2.length ≤ rest.length := by
              have h2 := (readBracket_eq hrb).2
              have : (ds ++ ']' :: rest2).length = rest.length := by rw [h2]
              simp only [List.length_append, List.length_cons] at this
              omega
            simp only []
            rw [ih b rest2 (le_trans hlen ha2) (le_trans hlen hb2)]
        · rw [if_neg hc, if_neg hc]
          by_cases hd : isDelim c
          · rw [if_pos hd, if_pos hd]
            exact ih b rest ha2 hb2
          · rw [if_neg hd, if_neg hd]
            have hlen : (takeRun (c :: rest)).2.length ≤ rest.length := by
              rw [takeRun_cons_nondelim (Bool.eq_false_iff.mpr hd)]
              exact takeRun_snd_len rest
            rw [ih b (takeRun (c :: rest)).2 (le_trans hlen ha2) (le_trans hlen hb2)]

theorem scan_bracket {rest ds rest2 : List Char}
    (h : readBracket rest = some (ds, rest2)) :
    scan ('[' :: rest) = Tok.bracket ds :: scan rest2 := by
  have hlen : rest2.length ≤ rest.length := by
    have h2 := (readBracket_eq h).2
    have : (ds ++ ']' :: rest2).length = rest.length := by rw [h2]
    simp only [List.length_append, List.length_cons] at this
    omega
  show scanF ('[' :: rest).length ('[' :: rest) = _
  rw [List.length_cons, scanF_succ, if_pos rfl, h]
  simp only []
  rw [scanF_fuel rest.length rest2.length rest2 hlen (le_refl _)]
  rfl

theorem scan_bracket_none {rest : List Char} (h : readBracket rest = none) :
    scan ('[' :: rest) = scan rest := by
  show scanF ('[' :: rest).length ('[' :: rest) = _
  rw [List.length_cons, scanF_succ, if_pos rfl, h]
  rfl

theorem scan_delim {c : Char} {rest : List Char} (hne : c ≠ '[')
    (hd : isDelim c = true) : scan (c :: rest) = scan rest := by
  show scanF (c :: rest).length (c :: rest) = _
  rw [List.length_cons, scanF_succ, if_neg hne, if_pos hd]
  rfl

theorem scan_run {c : Char} {rest : List Char} (hd : isDelim c = false) :
    scan (c :: rest) =
      Tok.dotSeg (takeRun (c :: rest)).1 :: scan ((takeRun (c :: rest)).2) := by
  have hne : c ≠ '[' := by
    intro h
    subst h
    simp [isDelim] at hd
  have hlen : (takeRun (c :: rest)).2.length ≤ rest.length := by
    rw [takeRun_cons_nondelim hd]
    exact takeRun_snd_len rest
  show scanF (c :: rest).length (c :: rest) = _
  rw [List.length_cons, scanF_succ, if_neg hne, if_neg (by simp [hd])]
  rw [scanF_fuel rest.length (takeRun (c :: rest)).2.length _ hlen (le_refl _)]
  rfl

/-! ## Decimal strings -/

theorem digitChar_isDigit {r : Nat} (h : r < 10) :
    (Char.ofNat (48 + r)).isDigit = true := by
  interval_cases r <;> decide

theorem digitChar_toNat {r : Nat} (h : r < 10) :
    (Char.ofNat (48 + r)).toNat = 48 + r := by
  interval_cases r <;> decide

theorem natToDigitsAux_digits :
    ∀ (fuel n : Nat) (acc : List Char), (∀ c ∈ acc, c.isDigit = true) →
      ∀ c ∈ natToDigitsAux fuel n acc, c.isDigit = true := by
  intro fuel
  induction fuel with
  | zero => intro n acc hacc; simpa [natToDigitsAux] using hacc
  | succ f ih =>
    intro n acc hacc c hc
    have hacc2 : ∀ c ∈ Char.ofNat (48 + n % 10) :: acc, c.isDigit = true := by
      intro x hx
      rcases List.mem_cons.mp hx with h | h
      · subst h
        exact digitChar_isDigit (Nat.mod_lt _ (by norm_num))
      · exact hacc x h
    simp only [natToDigitsAux] at hc
    by_cases hn : n < 10
    · rw [if_pos hn] at hc
      exact hacc2 c hc
    · rw [if_neg hn] at hc
      exact ih (n / 10) _ hacc2 c hc

theorem natToDigitsAux_len_ge :
    ∀ (fuel n : Nat) (acc : List Char), acc.length ≤ (natToDigitsAux fuel n acc).length := by
  intro fuel
  induction fuel with
  | zero => intro n acc; simp [natToDigitsAux]
  | succ f ih =>
    intro n acc
    simp only [natToDigitsAux]
    by_cases hn : n < 10
    · rw [if_pos hn]; simp
    · rw [if_neg hn]
      calc acc.length ≤ (Char.ofNat (48 + n % 10) :: acc).length := by simp
        _ ≤ _ := ih (n / 10) _

theorem natToDigitsAux_ne_nil (fuel n : Nat) (acc : List Char) :
    natToDigitsAux (fuel + 1) n acc ≠ [] := by
  intro h
  have h1 := natToDigitsAux_len_ge fuel (n / 10) (Char.ofNat (48 + n % 10) :: acc)
  simp only [natToDigitsAux] at h
  by_cases hn : n < 10
  · rw [if_pos hn] at h
    exact List.cons_ne_nil _ _ h
  · rw [if_neg hn] at h
    rw [h] at h1
    simp at h1

theorem natToString_numeric (n : Nat) : isNumeric (natToString n) = true := by
  have hne := natToDigitsAux_ne_nil n n []
  have hdig := natToDigitsAux_digits (n + 1) n [] (by simp)
  simp only [isNumeric, natToString, Bool.and_eq_true, Bool.not_eq_true']
  constructor
  · simpa [List.isEmpty_iff] using hne
  · exact List.all_eq_true.mpr fun c hc => hdig c hc

theorem natToDigitsAux_decode :
    ∀ (fuel n : Nat) (acc : List Char), n < 10 ^ fuel →
      List.foldl (fun a c => 10 * a + (c.toNat - 48)) 0 (natToDigitsAux fuel n acc) =
        List.foldl (fun a c => 10 * a + (c.toNat - 48)) n acc := by
  intro fuel
  induction fuel with
  | zero =>
    intro n acc hn
    have : n = 0 := by simpa using hn
    subst this
    rfl
  | succ f ih =>
    intro n acc hn
    have hm : n % 10 < 10 := Nat.mod_lt _ (by norm_num)
    simp only [natToDigitsAux]
    by_cases h10 : n < 10
    · rw [if_pos h10]
      simp only [List.foldl_cons, digitChar_toNat hm]
      have : 10 * 0 + (48 + n % 10 - 48) = n := by omega
      rw [this]
    · rw [if_neg h10]
      have hlt : n / 10 < 10 ^ f := by
        rw [Nat.div_lt_iff_lt_mul (by norm_num)]
        calc n < 10 ^ (f + 1) := hn
          _ = 10 ^ f * 10 := by ring
      rw [ih (n / 10) _ hlt]
      simp only [List.foldl_cons, digitChar_toNat hm]
      have : 10 * (n / 10) + (48 + n % 10 - 48) = n := by omega
      rw [this]

theorem natToString_decode (n : Nat) : digitsToNat (natToString n).data = n := by
  have hb : n < 10 ^ (n + 1) := by
    calc n < 10 ^ n := Nat.lt_pow_self (by norm_num) n
      _ ≤ 10 ^ (n + 1) := Nat.pow_le_pow_right (by norm_num) (by omega)
  simpa [digitsToNat, natToString] using natToDigitsAux_decode (n + 1) n [] hb

theorem natToString_inj {m n : Nat} (h : natToString m = natToString n) : m = n := by
  have := congrArg (fun s => digitsToNat s.data) h
  simpa [natToString_decode] using this

theorem ne_natToString_of_not_numeric {s : String} (hs : isNumeric s = false)
    (j : Nat) : s ≠ natToString j := by
  intro h
  rw [h, natToString_numeric j] at hs
  simp at hs

/-! ## Object and array access laws -/

theorem objLookup_objSet_self (f : List (String × Value)) (s : String) (v : Value) :
    objLookup (objSet f s v) s = v := by
  induction f with
  | nil => simp [objSet, objLookup]
  | cons p rest ih =>
    obtain ⟨k, w⟩ := p
    by_cases hk : k = s
    · simp [objSet, objLookup, hk]
    · simp [objSet, objLookup, hk, ih]

theorem objSet_lookup_self {f : List (String × Value)} {s : String}
    (h : objLookup f s ≠ .vNull) : objSet f s (objLookup f s) = f := by
  induction f with
  | nil => simp [objLookup] at h
  | cons p rest ih =>
    obtain ⟨k, w⟩ := p
    by_cases hk : k = s
    · simp [objSet, objLookup, hk]
    · simp only [objLookup, hk, if_false, if_neg] at h
      simp [objSet, objLookup, hk, ih h]

theorem objLookup_append_right {f g : List (String × Value)} {s : String}
    (h : ∀ p ∈ f, p.1 ≠ s) : objLookup (f ++ g) s = objLookup g s := by
  induction f with
  | nil => simp
  | cons p rest ih =>
    obtain ⟨k, w⟩ := p
    have hk : k ≠ s := h (k, w) (by simp)
    simp only [List.cons_append, objLookup, if_neg hk]
    exact ih fun q hq => h q (by simp [hq])

theorem objSet_append_right {f g : List (String × Value)} {s : String} {v : Value}
    (h : ∀ p ∈ f, p.1 ≠ s) : objSet (f ++ g) s v = f ++ objSet g s v := by
  induction f with
  | nil => simp
  | cons p rest ih =>
    obtain ⟨k, w⟩ := p
    have hk : k ≠ s := h (k, w) (by simp)
    simp only [List.cons_append, objSet, if_neg hk, List.cons.injEq, true_and]
    exact ih fun q hq => h q (by simp [hq])

theorem arrFieldsFrom_keys :
    ∀ (xs : List Value) (i : Nat) (p : String × Value), p ∈ arrFieldsFrom i xs →
      ∃ j, p.1 = natToString j := by
  intro xs
  induction xs with
  | nil => intro i p hp; simp [arrFieldsFrom] at hp
  | cons x rest ih =>
    intro i p hp
    rcases List.mem_cons.mp hp with h | h
    · exact ⟨i, by rw [h]⟩
    · exact ih (i + 1) p h

theorem objLookup_arrFields_str {xs : List Value} {tail : List (String × Value)}
    {s : String} (hs : isNumeric s = false) :
    objLookup (arrFields xs ++ tail) s = objLookup tail s := by
  refine objLookup_append_right fun p hp => ?_
  obtain ⟨j, hj⟩ := arrFieldsFrom_keys xs 0 p hp
  rw [hj]
  exact fun hc => ne_natToString_of_not_numeric hs j hc.symm

theorem getD_set_self :
    ∀ (xs : List Value) (n : Nat) (v d : Value), n < xs.length →
      (xs.set n v).getD n d = v := by
  intro xs
  induction xs with
  | nil => intro n v d h; simp at h
  | cons x rest ih =>
    intro n v d h
    cases n with
    | zero => rfl
    | succ m =>
      simp only [List.set_cons_succ, List.getD_cons_succ]
      exact ih m v d (by simpa using h)

theorem set_getD_self :
    ∀ (xs : List Value) (n : Nat) (d : Value), n < xs.length →
      xs.set n (xs.getD n d) = xs := by
  intro xs
  induction xs with
  | nil => intro n d h; simp at h
  | cons x rest ih =>
    intro n d h
    cases n with
    | zero => rfl
    | succ m =>
      simp only [List.getD_cons_succ, List.set_cons_succ, List.cons.injEq, true_and]
      exact ih m d (by simpa using h)

theorem getD_append_singleton :
    ∀ (l : List Value) (v d : Value), (l ++ [v]).getD l.length d = v := by
  intro l
  induction l with
  | nil => intro v d; rfl
  | cons x rest ih =>
    intro v d
    show (rest ++ [v]).getD rest.length d = v
    exact ih v d

theorem isContainer_not_null {p : Value} (h : isContainer p = true) :
    isNull p = false := by
  cases p <;> simp_all [isContainer, isNull]

theorem isContainer_setIdx {p : Value} (k : PKey) (v : Value)
    (h : isContainer p = true) : isContainer (setIdx p k v) = true := by
  cases p with
  | vObj f => cases k <;> simp [setIdx, isContainer]
  | vArr xs =>
    cases k with
    | str s => simp [setIdx, isContainer]
    | num n =>
      simp only [setIdx]
      by_cases hn : n < xs.length
      · rw [if_pos hn]; rfl
      · rw [if_neg hn]; rfl
  | vNull => simp [isContainer] at h
  | vBool b => simp [isContainer] at h
  | vNum m => simp [isContainer] at h
  | vStr s => simp [isContainer] at h

theorem isObjV_setIdx {p : Value} (k : PKey) (v : Value)
    (h : isObjV p = true) : isObjV (setIdx p k v) = true := by
  cases p <;> cases k <;> simp_all [isObjV, setIdx]

theorem getIdx_setIdx {p : Value} {k : PKey} (v : Value)
    (hp : isContainer p = true) (hf : keyFits p k = true) :
    getIdx (setIdx p k v) k = v := by
  cases p with
  | vObj f =>
    cases k <;> simp [setIdx, getIdx, objLookup_objSet_self]
  | vArr xs =>
    cases k with
    | str s => simp [keyFits, isObjV] at hf
    | num n =>
      by_cases hn : n < xs.length
      · simp only [setIdx, if_pos hn, getIdx]
        exact getD_set_self xs n v _ hn
      · simp only [setIdx, if_neg hn, getIdx]
        have hlen : (xs ++ List.replicate (n - xs.length) Value.vNull).length = n := by
          simp
          omega
        calc (xs ++ List.replicate (n - xs.length) Value.vNull ++ [v]).getD n Value.vNull
            = (xs ++ List.replicate (n - xs.length) Value.vNull ++ [v]).getD
                (xs ++ List.replicate (n - xs.length) Value.vNull).length Value.vNull := by
              rw [hlen]
          _ = v := getD_append_singleton _ v _
  | vNull => simp [isContainer] at hp
  | vBool b => simp [isContainer] at hp
  | vNum m => simp [isContainer] at hp
  | vStr s => simp [isContainer] at hp

theorem setIdx_getIdx_self {p : Value} {k : PKey}
    (h : getIdx p k ≠ .vNull) : setIdx p k (getIdx p k) = p := by
  cases p with
  | vObj f =>
    cases k <;> simp_all [setIdx, getIdx, objSet_lookup_self]
  | vArr xs =>
    cases k with
    | str s => simp [getIdx] at h
    | num n =>
      have hn : n < xs.length := by
        by_contra hc
        exact h (List.getD_eq_default _ _ (Nat.le_of_not_lt hc))
      show setIdx (Value.vArr xs) (PKey.num n) (xs.getD n Value.vNull) = Value.vArr xs
      simp only [setIdx, if_pos hn]
      rw [set_getD_self xs n _ hn]
  | vNull => simp [getIdx] at h
  | vBool b => simp [getIdx] at h
  | vNum m => simp [getIdx] at h
  | vStr s => simp [getIdx] at h

theorem isNull_false_ne {x : Value} (h : isNull x = false) : x ≠ .vNull := by
  cases x <;> simp_all [isNull]

/-! ## Unfolding the write loop branch by branch -/

theorem deepSetGo_nil (parent v : Value) : deepSetGo parent [] v = (parent, none) := rfl

theorem deepSetGo_single (parent v : Value) (k : PKey) :
    deepSetGo parent [k] v = (setIdx parent k v, none) := rfl

theorem deepSetGo_cons_null {parent : Value} {k : PKey} (k2 : PKey) (rest : List PKey)
    (v : Value) (h : isNull (getIdx parent k) = true) :
    deepSetGo parent (k :: k2 :: rest) v =
      (setIdx parent k
        (deepSetGo (if isNum k2 then Value.vArr [] else Value.vObj []) (k2 :: rest) v).1,
       (deepSetGo (if isNum k2 then Value.vArr [] else Value.vObj []) (k2 :: rest) v).2) := by
  simp only [deepSetGo, h, if_true]

theorem deepSetGo_cons_raw {parent : Value} {k : PKey} (k2 : PKey) (rest : List PKey)
    (v : Value) (h : isNull (getIdx parent k) = false)
    (h2 : isContainer (getIdx parent k) = false) :
    deepSetGo parent (k :: k2 :: rest) v = (parent, some Err.rawValueDetected) := by
  simp only [deepSetGo, h, Bool.false_eq_true, if_false, h2, Bool.not_false, if_true]

theorem deepSetGo_cons_go {parent : Value} {k : PKey} (k2 : PKey) (rest : List PKey)
    (v : Value) (h : isNull (getIdx parent k) = false)
    (h2 : isContainer (getIdx parent k) = true) :
    deepSetGo parent (k :: k2 :: rest) v =
      (setIdx parent k
        (deepSetGo
          (if !isNum k2 && isArr (getIdx parent k) then arrToObj (getIdx parent k)
           else getIdx parent k) (k2 :: rest) v).1,
       (deepSetGo
          (if !isNum k2 && isArr (getIdx parent k) then arrToObj (getIdx parent k)
           else getIdx parent k) (k2 :: rest) v).2) := by
  simp only [deepSetGo, h, Bool.false_eq_true, if_false, h2, Bool.not_true, if_false]

theorem deepGetGo_nil (curr : Value) : deepGetGo curr [] = .ok curr := rfl

theorem deepGetGo_cons (curr : Value) (k : PKey) (rest : List PKey) :
    deepGetGo curr (k :: rest) =
      if isNull curr then .error .keyNotFound else deepGetGo (getIdx curr k) rest := rfl

/-- Indexing an empty container always reads `undefined`. -/
theorem getIdx_empty {c : Value} (hc : c = .vArr [] ∨ c = .vObj []) (k : PKey) :
    getIdx c k = .vNull := by
  rcases hc with h | h <;> subst h <;> cases k <;> rfl

/-- Writing below a freshly created empty container never throws: every
deeper slot is absent, so the loop only creates further fresh containers. -/
theorem deepSetGo_empty_snd :
    ∀ (keys : List PKey) (v c : Value), (c = .vArr [] ∨ c = .vObj []) →
      (deepSetGo c keys v).2 = none := by
  intro keys
  induction keys with
  | nil => intro v c _; rfl
  | cons k rest ih =>
    intro v c hc
    cases rest with
    | nil => rfl
    | cons k2 rest2 =>
      rw [deepSetGo_cons_null k2 rest2 v (by rw [getIdx_empty hc]; rfl)]
      by_cases hk2 : isNum k2 = true
      · simp only [hk2, if_true]
        exact ih v _ (Or.inl rfl)
      · simp only [Bool.not_eq_true] at hk2
        simp only [hk2, Bool.false_eq_true, if_false]
        exact ih v _ (Or.inr rfl)

/-- If the very next slot is absent, the rest of the write proceeds through
fresh containers and never throws. -/
theorem deepSetGo_snd_of_null {parent : Value} {k : PKey} (rest : List PKey) (v : Value)
    (h : getIdx parent k = .vNull) : (deepSetGo parent (k :: rest) v).2 = none := by
  cases rest with
  | nil => rfl
  | cons k2 rest2 =>
    rw [deepSetGo_cons_null k2 rest2 v (by rw [h]; rfl)]
    by_cases hk2 : isNum k2 = true
    · simp only [hk2, if_true]
      exact deepSetGo_empty_snd _ v _ (Or.inl rfl)
    · simp only [Bool.not_eq_true] at hk2
      simp only [hk2, Bool.false_eq_true, if_false]
      exact deepSetGo_empty_snd _ v _ (Or.inr rfl)

/-- String keys produced by the parser never consist only of digits
(those become numeric segments). -/
theorem parsePath_str_not_numeric {p : String} {s : String}
    (h : PKey.str s ∈ parsePath p) : isNumeric s = false := by
  obtain ⟨t, _, ht⟩ := List.mem_map.mp h
  cases t with
  | bracket ds => simp [tokToKey] at ht
  | dotSeg ds =>
    by_cases hn : (!ds.isEmpty && ds.all Char.isDigit) = true
    · simp [tokToKey, hn] at ht
    · simp only [tokToKey, hn, Bool.false_eq_true, if_false, PKey.str.injEq] at ht
      subst ht
      simpa [isNumeric] using hn

/-- Main atomicity lemma for the write loop: if the loop exits with an
error, the tree handed back is the original one.  The hypothesis on string
keys holds for every parsed path. -/
theorem deepSetGo_err_unchanged :
    ∀ (keys : List PKey), (∀ s, PKey.str s ∈ keys → isNumeric s = false) →
      ∀ (parent v : Value) (e : Err), (deepSetGo parent keys v).2 = some e →
        (deepSetGo parent keys v).1 = parent := by
  intro keys
  induction keys with
  | nil => intro _ parent v e h; simp [deepSetGo_nil] at h
  | cons k rest ih =>
    intro hgood parent v e h
    cases rest with
    | nil => simp [deepSetGo_single] at h
    | cons k2 rest2 =>
      by_cases hnull : isNull (getIdx parent k) = true
      · exfalso
        have hn : getIdx parent k = .vNull := by
          cases hx : getIdx parent k <;> simp_all [isNull]
        rw [deepSetGo_snd_of_null (k2 :: rest2) v hn] at h
        exact Option.noConfusion h
      · simp only [Bool.not_eq_true] at hnull
        by_cases hcont : isContainer (getIdx parent k) = true
        · rw [deepSetGo_cons_go k2 rest2 v hnull hcont] at h ⊢
          by_cases hconv : (!isNum k2 && isArr (getIdx parent k)) = true
          · exfalso
            have hconv2 := hconv
            simp only [Bool.and_eq_true, Bool.not_eq_true'] at hconv2
            obtain ⟨hk2, harr⟩ := hconv2
            obtain ⟨xs, hxs⟩ : ∃ xs, getIdx parent k = Value.vArr xs := by
              cases hx : getIdx parent k <;> simp_all [isArr]
            obtain ⟨s, hs⟩ : ∃ s, k2 = PKey.str s := by
              cases k2 <;> simp_all [isNum]
            have hsnn : isNumeric s = false :=
              hgood s (by rw [hs] at *; exact List.mem_cons_of_mem _ (List.mem_cons_self _ _))
            have hlook : getIdx (arrToObj (getIdx parent k)) k2 = .vNull := by
              rw [hxs, hs]
              show objLookup (arrFields xs) s = Value.vNull
              have h9 : objLookup (arrFields xs ++ []) s = objLookup [] s :=
                objLookup_arrFields_str hsnn
              simpa using h9
            rw [if_pos hconv] at h
            rw [deepSetGo_snd_of_null rest2 v hlook] at h
            exact Option.noConfusion h
          · rw [if_neg hconv] at h ⊢
            have hgood2 : ∀ s, PKey.str s ∈ k2 :: rest2 → isNumeric s = false :=
              fun s hs => hgood s (List.mem_cons_of_mem _ hs)
            rw [ih hgood2 (getIdx parent k) v e h]
            exact setIdx_getIdx_self (isNull_false_ne hnull)
        · simp only [Bool.not_eq_true] at hcont
          rw [deepSetGo_cons_raw k2 rest2 v hnull hcont]

/-- C4 at the level of `deepSet` itself (path string included): a
`RawValueDetected` failure leaves the tree exactly as it was. -/
theorem deepSetRun_err_unchanged (root : Value) (path : String) (v : Value) (e : Err)
    (h : (deepSetRun root path v).2 = some e) : (deepSetRun root path v).1 = root :=
  deepSetGo_err_unchanged (parsePath path)
    (fun _ hs => parsePath_str_not_numeric hs) root v e h

/-! ## Write/read round-trip -/

theorem deepSetGo_roundtrip :
    ∀ (rest : List PKey) (k : PKey) (parent v : Value),
      isContainer parent = true → keyFits parent k = true →
      (deepSetGo parent (k :: rest) v).2 = none →
      deepGetGo (deepSetGo parent (k :: rest) v).1 (k :: rest) = .ok v := by
  intro rest
  induction rest with
  | nil =>
    intro k parent v hc hf _
    rw [deepSetGo_single, deepGetGo_cons]
    have hnn : isNull (setIdx parent k v) = false :=
      isContainer_not_null (isContainer_setIdx k v hc)
    simp only [hnn, Bool.false_eq_true, if_false]
    rw [getIdx_setIdx v hc hf]
    rfl
  | cons k2 rest2 ih =>
    intro k parent v hc hf herr
    by_cases hnull : isNull (getIdx parent k) = true
    · rw [deepSetGo_cons_null k2 rest2 v hnull] at herr ⊢
      dsimp only at herr ⊢
      have hfc : isContainer (if isNum k2 then Value.vArr [] else Value.vObj []) = true := by
        by_cases hk2 : isNum k2 = true <;> simp [hk2, isContainer]
      have hff : keyFits (if isNum k2 then Value.vArr [] else Value.vObj []) k2 = true := by
        cases k2 <;> simp [keyFits, isNum, isObjV]
      have hrt := ih k2 _ v hfc hff herr
      rw [deepGetGo_cons]
      have hnn : isNull (setIdx parent k
          (deepSetGo (if isNum k2 then Value.vArr [] else Value.vObj []) (k2 :: rest2) v).1)
          = false := isContainer_not_null (isContainer_setIdx _ _ hc)
      simp only [hnn, Bool.false_eq_true, if_false]
      rw [getIdx_setIdx _ hc hf]
      exact hrt
    · simp only [Bool.not_eq_true] at hnull
      by_cases hcont : isContainer (getIdx parent k) = true
      · rw [deepSetGo_cons_go k2 rest2 v hnull hcont] at herr ⊢
        dsimp only at herr ⊢
        have hic : isContainer
            (if !isNum k2 && isArr (getIdx parent k) then arrToObj (getIdx parent k)
             else getIdx parent k) = true := by
          by_cases hcv : (!isNum k2 && isArr (getIdx parent k)) = true
          · rw [if_pos hcv]
            have harr := (Bool.and_eq_true _ _ |>.mp hcv).2
            cases hx : getIdx parent k <;> simp_all [isArr, arrToObj, isContainer]
          · rw [if_neg hcv]
            exact hcont
        have hif : keyFits
            (if !isNum k2 && isArr (getIdx parent k) then arrToObj (getIdx parent k)
             else getIdx parent k) k2 = true := by
          cases k2 with
          | num n => simp [keyFits]
          | str s =>
            by_cases harr : isArr (getIdx parent k) = true
            · rw [if_pos (by simp [isNum, harr])]
              cases hx : getIdx parent k <;> simp_all [isArr, arrToObj, keyFits, isObjV]
            · rw [if_neg (by simp [harr])]
              cases hx : getIdx parent k <;>
                simp_all [isArr, isContainer, keyFits, isObjV]
        have hrt := ih k2 _ v hic hif herr
        rw [deepGetGo_cons]
        have hnn : isNull (setIdx parent k
            (deepSetGo
              (if !isNum k2 && isArr (getIdx parent k) then arrToObj (getIdx parent k)
               else getIdx parent k) (k2 :: rest2) v).1) = false :=
          isContainer_not_null (isContainer_setIdx _ _ hc)
        simp only [hnn, Bool.false_eq_true, if_false]
        rw [getIdx_setIdx _ hc hf]
        exact hrt
      · simp only [Bool.not_eq_true] at hcont
        rw [deepSetGo_cons_raw k2 rest2 v hnull hcont] at herr
        exact absurd herr (by simp)

/-! ## Element lookup in a downgraded array -/

theorem objLookup_arrFieldsFrom :
    ∀ (xs : List Value) (j i : Nat) (tail : List (String × Value)), i < xs.length →
      objLookup (arrFieldsFrom j xs ++ tail) (natToString (j + i)) = xs.getD i .vNull := by
  intro xs
  induction xs with
  | nil => intro j i tail h; simp at h
  | cons x rest ih =>
    intro j i tail h
    cases i with
    | zero =>
      simp [arrFieldsFrom, objLookup]
    | succ m =>
      simp only [arrFieldsFrom, List.cons_append, objLookup]
      rw [if_neg (fun heq => by have := natToString_inj heq; omega)]
      have hj : j + (m + 1) = (j + 1) + m := by omega
      rw [hj, List.getD_cons_succ]
      exact ih (j + 1) m tail (by simpa using h)

/-! ## Read characterization -/

theorem prefixVal_zero (root : Value) (keys : List PKey) :
    prefixVal root keys 0 = root := rfl

theorem prefixVal_cons_succ (root : Value) (k : PKey) (rest : List PKey) (j : Nat) :
    prefixVal root (k :: rest) (j + 1) = prefixVal (getIdx root k) rest j := by
  simp [prefixVal]

theorem deepGetGo_characterization :
    ∀ (keys : List PKey) (root : Value),
      deepGetGo root keys =
        if (List.range keys.length).any (fun j => isNull (prefixVal root keys j)) then
          .error .keyNotFound
        else .ok (prefixVal root keys keys.length) := by
  intro keys
  induction keys with
  | nil => intro root; simp [deepGetGo_nil, prefixVal]
  | cons k rest ih =>
    intro root
    rw [deepGetGo_cons]
    by_cases hnull : isNull root = true
    · rw [if_pos hnull]
      have hany : (List.range (k :: rest).length).any
          (fun j => isNull (prefixVal root (k :: rest) j)) = true :=
        List.any_eq_true.mpr ⟨0, by simp, by simpa [prefixVal] using hnull⟩
      rw [if_pos hany]
    · simp only [Bool.not_eq_true] at hnull
      simp only [hnull, Bool.false_eq_true, if_false]
      rw [ih (getIdx root k)]
      have hany : (List.range (k :: rest).length).any
            (fun j => isNull (prefixVal root (k :: rest) j))
          = (List.range rest.length).any
            (fun j => isNull (prefixVal (getIdx root k) rest j)) := by
        rw [List.length_cons, List.range_succ_eq_map, List.any_cons, List.any_map]
        have h0 : isNull (prefixVal root (k :: rest) 0) = false := hnull
        rw [prefixVal_zero] at h0
        simp only [prefixVal_zero, hnull, Bool.false_or]
        have hfun : ((fun j => isNull (prefixVal root (k :: rest) j)) ∘ Nat.succ) =
            (fun j => isNull (prefixVal (getIdx root k) rest j)) := by
          funext j
          simp [Function.comp, prefixVal_cons_succ]
        rw [hfun]
      by_cases hc : (List.range rest.length).any
          (fun j => isNull (prefixVal (getIdx root k) rest j)) = true
      · rw [if_pos hc, if_pos (by rw [hany]; exact hc)]
      · rw [if_neg hc, if_neg (by rw [hany]; exact hc)]
        rw [List.length_cons, prefixVal_cons_succ]

/-! ## The remove loop -/

/-- When the constant `isLast` flag is false (every path with other than
exactly one segment), the remove loop only walks and the tree is returned
unchanged. -/
theorem deepRemoveLoop_not_last :
    ∀ (keys : List PKey) (c : Value), deepRemoveLoop c keys false = c := by
  intro keys
  induction keys with
  | nil => intro c; rfl
  | cons k rest ih =>
    intro c
    by_cases hn : isNull c = true
    · simp [deepRemoveLoop, hn]
    · simp only [Bool.not_eq_true] at hn
      simp only [deepRemoveLoop, hn, Bool.false_eq_true, if_false, ih]
      by_cases hch : isNull (getIdx c k) = true
      · rw [if_pos hch]
      · rw [if_neg hch]
        exact setIdx_getIdx_self (isNull_false_ne (by simpa using hch))

theorem renderTail_head (toks : List Token) :
    renderTail toks = [] ∨ ∃ c t, renderTail toks = c :: t ∧ isDelim c = true := by
  cases toks with
  | nil => exact Or.inl rfl
  | cons t rest =>
    cases t with
    | dotted ds => exact Or.inr ⟨'.', _, rfl, by decide⟩
    | bracketed ds => exact Or.inr ⟨'[', _, rfl, by decide⟩

theorem scan_dotted (ds : List Char) (toks : List Token) (h1 : ds ≠ [])
    (h2 : ∀ c ∈ ds, isDelim c = false) :
    scan (ds ++ renderTail toks) = Tok.dotSeg ds :: scan (renderTail toks) := by
  match ds, h1 with
  | c :: ds2, _ =>
    have hc : isDelim c = false := h2 c (by simp)
    have ht : takeRun ((c :: ds2) ++ renderTail toks) = (c :: ds2, renderTail toks) :=
      takeRun_run _ _ h2 (renderTail_head toks)
    rw [List.cons_append] at ht
    rw [List.cons_append, scan_run hc, ht]

theorem scan_bracketed (ds : List Char) (toks : List Token) (h1 : ds ≠ [])
    (h2 : ∀ c ∈ ds, c.isDigit = true) :
    scan ('[' :: (ds ++ ']' :: renderTail toks)) =
      Tok.bracket ds :: scan (renderTail toks) :=
  scan_bracket (readBracket_of ds (renderTail toks) h1 h2)

theorem validToken_dotted {ds : List Char} (h : validToken (Token.dotted ds) = true) :
    ds ≠ [] ∧ ∀ c ∈ ds, isDelim c = false := by
  simp only [validToken, Bool.and_eq_true, Bool.not_eq_true', List.all_eq_true,
    Bool.not_eq_true] at h
  obtain ⟨h1, h2⟩ := h
  exact ⟨by simpa [List.isEmpty_iff] using h1, fun c hc => by simpa using h2 c hc⟩

theorem validToken_bracketed {ds : List Char}
    (h : validToken (Token.bracketed ds) = true) :
    ds ≠ [] ∧ ∀ c ∈ ds, c.isDigit = true := by
  simp only [validToken, Bool.and_eq_true, Bool.not_eq_true', List.all_eq_true] at h
  obtain ⟨h1, h2⟩ := h
  exact ⟨by simpa [List.isEmpty_iff] using h1, h2⟩

theorem scan_renderTail :
    ∀ toks : List Token, (∀ t ∈ toks, validToken t = true) →
      scan (renderTail toks) = toks.map tokOfToken := by
  intro toks
  induction toks with
  | nil => intro _; rfl
  | cons t rest ih =>
    intro hv
    have hvt := hv t (by simp)
    have hvr := fun x hx => hv x (List.mem_cons_of_mem _ hx)
    cases t with
    | dotted ds =>
      obtain ⟨hne, hnd⟩ := validToken_dotted hvt
      show scan ('.' :: (ds ++ renderTail rest)) = _
      rw [scan_delim (by decide) (by decide), scan_dotted ds rest hne hnd, ih hvr]
      rfl
    | bracketed ds =>
      obtain ⟨hne, hdig⟩ := validToken_bracketed hvt
      show scan ('[' :: (ds ++ ']' :: renderTail rest)) = _
      rw [scan_bracketed ds rest hne hdig, ih hvr]
      rfl

theorem scan_render (toks : List Token) (hv : ∀ t ∈ toks, validToken t = true) :
    scan (render toks).data = toks.map tokOfToken := by
  cases toks with
  | nil => rfl
  | cons t rest =>
    have hvt := hv t (by simp)
    have hvr := fun x hx => hv x (List.mem_cons_of_mem _ hx)
    cases t with
    | dotted ds =>
      obtain ⟨hne, hnd⟩ := validToken_dotted hvt
      show scan (ds ++ renderTail rest) = _
      rw [scan_dotted ds rest hne hnd, scan_renderTail rest hvr]
      rfl
    | bracketed ds =>
      obtain ⟨hne, hdig⟩ := validToken_bracketed hvt
      show scan (('[' :: ds ++ [']']) ++ renderTail rest) = _
      have : ('[' :: ds ++ [']']) ++ renderTail rest =
          '[' :: (ds ++ ']' :: renderTail rest) := by simp
      rw [this, scan_bracketed ds rest hne hdig, scan_renderTail rest hvr]
      rfl

/-! ## Delimiter-only paths -/

theorem delim_not_digit {c : Char} (h : isDelim c = true) : c.isDigit = false := by
  simp only [isDelim, Bool.or_eq_true, decide_eq_true_eq] at h
  rcases h with (h | h) | h <;> subst h <;> decide

theorem scan_all_delim : ∀ (l : List Char), (∀ c ∈ l, isDelim c = true) → scan l = [] := by
  intro l
  induction l with
  | nil => intro _; rfl
  | cons c rest ih =>
    intro h
    have hc := h c (by simp)
    have hrest := fun x hx => h x (List.mem_cons_of_mem _ hx)
    by_cases hb : c = '['
    · subst hb
      have hrb : readBracket rest = none := by
        unfold readBracket
        cases rest with
        | nil => simp [takeDigits]
        | cons c2 t =>
          have hnd : c2.isDigit = false := delim_not_digit (hrest c2 (by simp))
          simp [takeDigits, hnd]
      rw [scan_bracket_none hrb]
      exact ih hrest
    · rw [scan_delim hb hc]
      exact ih hrest

/-! ## Claim theorems -/

/-- C1: the claim says that `remove`/`delValue` with the default flag on a
list element (here path `students.0` in
`{students: [{name: Ali}, {name: Sarah}]}`) pops the element and shifts, so
the length drops to 1.  The source `deepRemove` never increments its loop
counter `i`, so its last-segment branch never fires on a two-segment path
(and even that branch uses JS `delete`, which does not shift): the call
returns with the storage unchanged — both elements are still in place, as
this evaluation shows.  The repository's own test "check delete function on
array when remove" expects the shifted result, so this is a code bug. -/
theorem deepRemove_nested_list_noop :
    deepRemove
      (Value.vObj [("students", Value.vArr
        [Value.vObj [("name", Value.vStr "Ali")],
         Value.vObj [("name", Value.vStr "Sarah")]])]) "students.0" =
      Value.vObj [("students", Value.vArr
        [Value.vObj [("name", Value.vStr "Ali")],
         Value.vObj [("name", Value.vStr "Sarah")]])] := rfl

/-- C2: the claim says that `delValue` with `preserveLength = true` blanks
the addressed list element in place.  The facade (`delValue`) forwards the
flag, but the source `deepRemove` declares no such parameter, so the extra
argument is ignored; together with the frozen loop counter of C1 the call
leaves the storage unchanged: index 0 still holds `{name: Ali}` instead of
becoming absent.  The repository's test "check delete function on array
when set to undefined" expects the blanked element, so this is a code
bug. -/
theorem delValue_preserve_flag_noop :
    delValue
      (Value.vObj [("students", Value.vArr
        [Value.vObj [("name", Value.vStr "Ali")],
         Value.vObj [("name", Value.vStr "Sarah")]])]) "students.0" true =
      Value.vObj [("students", Value.vArr
        [Value.vObj [("name", Value.vStr "Ali")],
         Value.vObj [("name", Value.vStr "Sarah")]])] := rfl

/-- C3: the claim says that `remove` on a path ending in a mapping key
deletes the key.  That holds only for one-segment paths; for the
two-segment path `a.b` in `{a: {b: 1}}` the frozen loop counter (see C1)
means no deletion is attempted and the key `b` survives with its value, as
this evaluation shows — contradicting the claim's quantification over all
paths whose intermediate containers exist. -/
theorem deepRemove_nested_key_noop :
    deepRemove (Value.vObj [("a", Value.vObj [("b", Value.vNum 1)])]) "a.b" =
      Value.vObj [("a", Value.vObj [("b", Value.vNum 1)])] := rfl

/-- C4: if `deepSet` throws `RawValueDetected` (a scalar sat where the
write needed to descend), no mutation has happened: the tree after the
call is exactly the tree before it. -/
theorem deepSet_rawValue_atomic (root : Value) (path : String) (v : Value)
    (h : (deepSetRun root path v).2 = some Err.rawValueDetected) :
    (deepSetRun root path v).1 = root :=
  deepSetRun_err_unchanged root path v _ h

theorem deepSet_rawValue_atomic_w :
    (deepSetRun (Value.vObj [("a", Value.vNum 5)]) "a.b" (Value.vStr "x")).2 =
        some Err.rawValueDetected ∧
      (deepSetRun (Value.vObj [("a", Value.vNum 5)]) "a.b" (Value.vStr "x")).1 =
        Value.vObj [("a", Value.vNum 5)] :=
  ⟨rfl, deepSet_rawValue_atomic _ _ _ rfl⟩

/-- C5: write/read round-trip.  For any storage root (a mapping), any path
that parses to at least one segment, and any value, if `deepSet` completes
without an error then `deepGet` on the same root and path returns exactly
the written value. -/
theorem deepSet_deepGet_roundtrip (f : List (String × Value)) (path : String)
    (v : Value) (hne : parsePath path ≠ [])
    (hok : (deepSetRun (Value.vObj f) path v).2 = none) :
    deepGet (deepSetRun (Value.vObj f) path v).1 path = .ok v := by
  obtain ⟨k, rest, hp⟩ : ∃ k rest, parsePath path = k :: rest := by
    cases hq : parsePath path with
    | nil => exact absurd hq hne
    | cons a b => exact ⟨a, b, rfl⟩
  unfold deepGet deepSetRun at *
  rw [hp] at hok ⊢
  exact deepSetGo_roundtrip rest k (Value.vObj f) v rfl (by cases k <;> rfl) hok

theorem deepSet_deepGet_roundtrip_w :
    parsePath "a.b" ≠ [] ∧
      (deepSetRun (Value.vObj []) "a.b" (Value.vNum 7)).2 = none ∧
      deepGet (deepSetRun (Value.vObj []) "a.b" (Value.vNum 7)).1 "a.b" =
        .ok (Value.vNum 7) :=
  ⟨by decide, rfl, deepSet_deepGet_roundtrip [] "a.b" (Value.vNum 7) (by decide) rfl⟩

/-- C6: list-to-mapping downgrade.  When the write finds a list where the
next segment is a string key, it replaces the list by a mapping whose
entries are exactly the list's elements keyed by their decimal positions,
followed by the newly written entry; every original element is still
readable at its numeric position and the new entry coexists with them.
(String keys from the parser are never all-digit, which is the `hs`
hypothesis.) -/
theorem deepSet_list_downgrade (f : List (String × Value)) (k s : String)
    (xs : List Value) (v : Value) (i : Nat)
    (hk : objLookup f k = Value.vArr xs) (hs : isNumeric s = false)
    (hi : i < xs.length) :
    (deepSetGo (Value.vObj f) [PKey.str k, PKey.str s] v).2 = none ∧
    (deepSetGo (Value.vObj f) [PKey.str k, PKey.str s] v).1 =
      Value.vObj (objSet f k (Value.vObj (arrFields xs ++ [(s, v)]))) ∧
    getIdx (Value.vObj (arrFields xs ++ [(s, v)])) (PKey.num i) =
      xs.getD i Value.vNull ∧
    getIdx (Value.vObj (arrFields xs ++ [(s, v)])) (PKey.str s) = v := by
  have hget : getIdx (Value.vObj f) (PKey.str k) = Value.vArr xs := hk
  have hnull : isNull (getIdx (Value.vObj f) (PKey.str k)) = false := by rw [hget]; rfl
  have hcont : isContainer (getIdx (Value.vObj f) (PKey.str k)) = true := by
    rw [hget]; rfl
  have hkeys : ∀ p ∈ arrFields xs, p.1 ≠ s := by
    intro p hp
    obtain ⟨j, hj⟩ := arrFieldsFrom_keys xs 0 p hp
    rw [hj]
    exact fun hc => ne_natToString_of_not_numeric hs j hc.symm
  have hset : objSet (arrFields xs) s v = arrFields xs ++ [(s, v)] := by
    have h2 : objSet (arrFields xs ++ []) s v = arrFields xs ++ objSet [] s v :=
      objSet_append_right hkeys
    simpa using h2
  refine ⟨?_, ?_, ?_, ?_⟩
  · rw [deepSetGo_cons_go (PKey.str s) [] v hnull hcont, hget]
    rfl
  · rw [deepSetGo_cons_go (PKey.str s) [] v hnull hcont, hget]
    show setIdx (Value.vObj f) (PKey.str k)
        (Value.vObj (objSet (arrFields xs) s v)) = _
    rw [hset]
    rfl
  · show objLookup (arrFieldsFrom 0 xs ++ [(s, v)]) (natToString i) = xs.getD i Value.vNull
    have h0 : natToString i = natToString (0 + i) := by rw [Nat.zero_add]
    rw [h0]
    exact objLookup_arrFieldsFrom xs 0 i [(s, v)] hi
  · show objLookup (arrFields xs ++ [(s, v)]) s = v
    rw [objLookup_arrFields_str hs]
    simp [objLookup]

theorem deepSet_list_downgrade_w :
    (objLookup [("students", Value.vArr [Value.vObj [("name", Value.vStr "Sara")]])]
        "students" = Value.vArr [Value.vObj [("name", Value.vStr "Sara")]] ∧
      isNumeric "totalCount" = false ∧ 0 < 1) ∧
    ((deepSetGo (Value.vObj [("students",
        Value.vArr [Value.vObj [("name", Value.vStr "Sara")]])])
        [PKey.str "students", PKey.str "totalCount"] (Value.vNum 25)).2 = none ∧
      (deepSetGo (Value.vObj [("students",
        Value.vArr [Value.vObj [("name", Value.vStr "Sara")]])])
        [PKey.str "students", PKey.str "totalCount"] (Value.vNum 25)).1 =
        Value.vObj (objSet [("students",
          Value.vArr [Value.vObj [("name", Value.vStr "Sara")]])] "students"
          (Value.vObj (arrFields [Value.vObj [("name", Value.vStr "Sara")]] ++
            [("totalCount", Value.vNum 25)]))) ∧
      getIdx (Value.vObj (arrFields [Value.vObj [("name", Value.vStr "Sara")]] ++
        [("totalCount", Value.vNum 25)])) (PKey.num 0) =
        [Value.vObj [("name", Value.vStr "Sara")]].getD 0 Value.vNull ∧
      getIdx (Value.vObj (arrFields [Value.vObj [("name", Value.vStr "Sara")]] ++
        [("totalCount", Value.vNum 25)])) (PKey.str "totalCount") = Value.vNum 25) :=
  ⟨⟨rfl, rfl, Nat.one_pos⟩,
    deepSet_list_downgrade _ "students" "totalCount" _ (Value.vNum 25) 0 rfl rfl
      Nat.one_pos⟩

/-- C7: `deepGet` fails with `KeyNotFound` exactly when one of the
containers entered before the final segment (the root, or the value reached
after the first `j` segments for some `j < keys.length`) is absent;
otherwise it returns the value at the full path, which may itself be absent
without that being an error. -/
theorem deepGet_keyNotFound_iff (root : Value) (keys : List PKey) :
    deepGetGo root keys =
      if (List.range keys.length).any (fun j => isNull (prefixVal root keys j)) then
        Except.error Err.keyNotFound
      else Except.ok (prefixVal root keys keys.length) :=
  deepGetGo_characterization keys root

/-- C8: for a path assembled purely from well-formed dotted tokens and
bracketed integer tokens, `parsePath` produces exactly one segment per
token, in order: bracketed tokens and all-digit dotted tokens become
indices, all other dotted tokens become keys. -/
theorem parsePath_token_shape (toks : List Token)
    (hv : ∀ t ∈ toks, validToken t = true) :
    parsePath (render toks) = toks.map expectedKey := by
  unfold parsePath
  rw [scan_render toks hv, List.map_map]
  apply List.map_congr_left
  intro t ht
  have hvt := hv t ht
  cases t with
  | bracketed ds => rfl
  | dotted ds =>
    obtain ⟨hne, _⟩ := validToken_dotted hvt
    have hne2 : ds.isEmpty = false := by simpa [List.isEmpty_iff] using hne
    simp [Function.comp, tokOfToken, tokToKey, expectedKey, hne2]

theorem parsePath_token_shape_w :
    (∀ t ∈ [Token.dotted "values".data, Token.dotted "0".data,
        Token.dotted "scores".data, Token.bracketed "5".data,
        Token.dotted "value".data], validToken t = true) ∧
    parsePath (render [Token.dotted "values".data, Token.dotted "0".data,
        Token.dotted "scores".data, Token.bracketed "5".data,
        Token.dotted "value".data]) =
      [PKey.str "values", PKey.num 0, PKey.str "scores", PKey.num 5,
        PKey.str "value"] :=
  ⟨by decide, by rw [parsePath_token_shape _ (by decide)]; rfl⟩

/-- C9: on a key that trims to the empty string, `getValue` and `setValue`
throw `KeyFormatException` with the storage untouched, while `delValue`
returns at once: it cannot throw (its return is a plain value, no error
component) and the storage is unchanged. -/
theorem empty_key_policy (st : Value) (key : String) (v : Value) (b : Bool)
    (h : jsTrim key = "") :
    getValue st key = Except.error Err.keyFormatException ∧
    setValueRun st key v = (st, some Err.keyFormatException) ∧
    delValue st key b = st := by
  refine ⟨?_, ?_, ?_⟩ <;> simp [getValue, setValueRun, delValue, h]

theorem empty_key_policy_w :
    jsTrim "  " = "" ∧
    (getValue (Value.vObj [("x", Value.vNum 1)]) "  " =
        Except.error Err.keyFormatException ∧
      setValueRun (Value.vObj [("x", Value.vNum 1)]) "  " (Value.vNum 2) =
        (Value.vObj [("x", Value.vNum 1)], some Err.keyFormatException) ∧
      delValue (Value.vObj [("x", Value.vNum 1)]) "  " true =
        Value.vObj [("x", Value.vNum 1)]) :=
  ⟨rfl, empty_key_policy _ _ _ _ rfl⟩

/-- C10: a key that trims to a non-empty string made only of the delimiter
characters parses to zero segments; `getValue` then walks no segment and
returns the whole root without an error, and `setValue` runs an empty write
loop, completing without an error and leaving the storage unchanged. -/
theorem delimiter_only_path (st v : Value) (p : String)
    (h1 : (jsTrim p).data ≠ [])
    (h2 : ∀ c ∈ (jsTrim p).data, isDelim c = true) :
    parsePath (jsTrim p) = [] ∧
    getValue st p = Except.ok st ∧
    setValueRun st p v = (st, none) := by
  have hp : parsePath (jsTrim p) = [] := by
    unfold parsePath
    rw [scan_all_delim _ h2]
    rfl
  have hne : jsTrim p ≠ "" := fun hc => h1 (by rw [hc])
  refine ⟨hp, ?_, ?_⟩
  · unfold getValue
    rw [if_neg hne]
    unfold deepGet
    rw [hp]
    rfl
  · unfold setValueRun deepSetRun
    rw [if_neg hne, hp]
    rfl

theorem delimiter_only_path_w :
    ((jsTrim ".").data ≠ [] ∧ ∀ c ∈ (jsTrim ".").data, isDelim c = true) ∧
    (parsePath (jsTrim ".") = [] ∧
      getValue (Value.vObj [("x", Value.vNum 1)]) "." =
        Except.ok (Value.vObj [("x", Value.vNum 1)]) ∧
      setValueRun (Value.vObj [("x", Value.vNum 1)]) "." (Value.vNum 9) =
        (Value.vObj [("x", Value.vNum 1)], none)) :=
  ⟨⟨by decide, by decide⟩, delimiter_only_path _ _ "." (by decide) (by decide)⟩

end RVStore
